import Mathlib

/-!
Shallow embedding of the parking-search core (`src/python/search.py`) and
verification of its specification.

The Python core is pure: it consumes a vehicle request (a list of
`{length, quantity}` dicts) and a listing catalog (a list of
`{id, location_id, width, length, price_in_cents}` dicts) and returns a ranked
list of per-location results.  All numeric fields are Python integers; the
spec's data-model invariant makes dimensions, prices and quantities
non-negative, so they are embedded as `Nat`.  The only float in the core is
`float('inf')` used as the initial price-to-beat; a price-to-beat value is
therefore embedded as `Option Nat` with `none` standing for `+inf`
(an integer compares `<` to `inf` and never `>=` to it, exactly as in Python).
-/

namespace ParkingSearch

/-- One catalog listing (a dict in the Python source):
`{id, location_id, width, length, price_in_cents}`.  Python's `list.remove`
and `in` compare dicts by value equality, embedded via `DecidableEq`. -/
structure Listing where
  id : Nat
  location_id : Nat
  width : Nat
  length : Nat
  price_in_cents : Nat
deriving DecidableEq, Repr

/-- One vehicle request group: `{length, quantity}`. -/
structure VehicleGroup where
  length : Nat
  quantity : Nat
deriving DecidableEq, Repr

/-- `endToEnd(carLength, numCars)`: (width, length) if cars are parked
end-to-end. -/
def endToEnd (carLength numCars : Nat) : Nat × Nat :=
  (carLength * numCars, numCars * 10)

/-- `sideBySide(carLength, numCars)`: (width, length) if cars are parked
side-by-side. -/
def sideBySide (carLength numCars : Nat) : Nat × Nat :=
  (10 * numCars, carLength)

/-- The compatibility test inlined in `find_cheapest_spot_optimized`:
the listing's length and width cover the end-to-end footprint, or they cover
the side-by-side footprint.  (The spec names this test `isCompatible`.) -/
def isCompatible (listing : Listing) (carLength numCars : Nat) : Bool :=
  (decide ((endToEnd carLength numCars).2 ≤ listing.length) &&
     decide ((endToEnd carLength numCars).1 ≤ listing.width)) ||
  (decide ((sideBySide carLength numCars).2 ≤ listing.length) &&
     decide ((sideBySide carLength numCars).1 ≤ listing.width))

/-- `find_cheapest_spot_optimized(numCars, carLength, available_listings)`:
scan the (price-sorted) pool and return the first compatible listing,
`None` if there is none. -/
def find_cheapest_spot_optimized (numCars carLength : Nat)
    (available_listings : List Listing) : Option Listing :=
  available_listings.find? (fun listing => isCompatible listing carLength numCars)

/-- `find_partitions(total_cars, num_sets, start=1)`.
`num_sets == 1` yields `(total_cars,)` iff `total_cars >= start`; otherwise
the first part `i` ranges over `range(start, total_cars // num_sets + 1)` and
the generator recurses on `(total_cars - i, num_sets - 1, start=i)`.
(`num_sets = 0` is unreachable in the source — the callers only pass
`num_sets >= 1` and the recursion stops at 1 — and is mapped to `[]`.) -/
def find_partitions : Nat → Nat → Nat → List (List Nat)
  | _, 0, _ => []
  | total_cars, 1, start => if start ≤ total_cars then [[total_cars]] else []
  | total_cars, num_sets + 2, start =>
      (List.range' start (total_cars / (num_sets + 2) + 1 - start)).flatMap fun i =>
        (find_partitions (total_cars - i) (num_sets + 1) i).map fun p => i :: p

/-- Python `current_price >= cheapest_price_for_this_loc` where the right side
may be `float('inf')` (embedded as `none`). -/
def priceReached (price : Nat) : Option Nat → Bool
  | none => false
  | some c => c ≤ price

/-- Python `current_price < cheapest_price_for_this_loc` where the right side
may be `float('inf')` (embedded as `none`). -/
def priceBelow (price : Nat) : Option Nat → Bool
  | none => true
  | some c => price < c

/-- The body of the `for p_ordering in set(permutations(partition))` loop of
`find_cheapest_for_location`: walk the ordering's group sizes over a
branch-local pool (`temp_listings = listings_at_location.copy()`), abandoning
the ordering when the running price already reached `cheapest` or when no
compatible spot exists, otherwise consuming the found spot
(`temp_listings.remove(spot)`, `used_listings.append(spot)`,
`current_price += spot['price_in_cents']`).  Returns the used listings in
append order together with the final running price. -/
def run_ordering (carLength : Nat) (cheapest : Option Nat) :
    List Nat → List Listing → Nat → Option (List Listing × Nat)
  | [], _, current_price => some ([], current_price)
  | group_size :: rest, temp_listings, current_price =>
    if priceReached current_price cheapest then none
    else
      match find_cheapest_spot_optimized group_size carLength temp_listings with
      | none => none
      | some spot =>
        match run_ordering carLength cheapest rest (temp_listings.erase spot)
            (current_price + spot.price_in_cents) with
        | none => none
        | some r => some (spot :: r.1, r.2)

/-- The `best_arrangement_for_this_loc` dict:
`{split_of_cars, listings_used, total_price_in_cents}`. -/
structure Arrangement where
  split_of_cars : List Nat
  listings_used : List Listing
  total_price_in_cents : Nat
deriving DecidableEq, Repr

/-- The sequence of orderings explored by `find_cheapest_for_location`'s three
nested loops: `num_groups` over `range(1, numCars + 1)`, partitions of
`numCars` into `num_groups` parts, and the distinct permutations of each
partition.  (Python iterates `set(permutations(partition))`, whose enumeration
order is unspecified; `dedup` of `permutations'` enumerates the same set.
Only equal-price tie-breaking could depend on that order.) -/
def all_orderings (numCars : Nat) : List (List Nat) :=
  (List.range' 1 numCars).flatMap fun num_groups =>
    (find_partitions numCars num_groups 1).flatMap fun partition =>
      partition.permutations'.dedup

/-- One iteration of the ordering loop: state is
`(cheapest_price_for_this_loc, best_arrangement_for_this_loc)`; a completed
ordering strictly below the current cheapest price becomes the new best. -/
def fcflStep (carLength : Nat) (listings_at_location : List Listing)
    (s : Option Nat × Option Arrangement) (p_ordering : List Nat) :
    Option Nat × Option Arrangement :=
  match run_ordering carLength s.1 p_ordering listings_at_location 0 with
  | none => s
  | some (used, price) =>
    if priceBelow price s.1 then (some price, some ⟨p_ordering, used, price⟩) else s

/-- `find_cheapest_for_location(numCars, carLength, listings_at_location,
price_to_beat)`: fold the ordering loop over all explored orderings, starting
from `cheapest = price_to_beat`, `best = None`, and return the best
arrangement (or `None`). -/
def find_cheapest_for_location (numCars carLength : Nat)
    (listings_at_location : List Listing) (price_to_beat : Option Nat) :
    Option Arrangement :=
  ((all_orderings numCars).foldl (fcflStep carLength listings_at_location)
    (price_to_beat, none)).2

/-- The key order of a Python dict built by appending: each location id in the
order of its first occurrence.  (`defaultdict` keys are insertion-ordered.) -/
def firstOccAux : List Nat → List Nat → List Nat
  | [], _ => []
  | x :: xs, seen =>
    if x ∈ seen then firstOccAux xs seen else x :: firstOccAux xs (x :: seen)

/-- Location ids in first-occurrence (encounter) order. -/
def firstOccurrences (l : List Nat) : List Nat :=
  firstOccAux l []

/-- Ascending-price order on listings (`key=lambda x: x['price_in_cents']`). -/
def priceLE (a b : Listing) : Prop :=
  a.price_in_cents ≤ b.price_in_cents

instance : DecidableRel priceLE :=
  fun a b => (inferInstance : Decidable (a.price_in_cents ≤ b.price_in_cents))

/-- The listings of one location, in catalog order, then stably sorted
ascending by price — the value `group_listings_by_location` stores under that
location's key (appending preserves catalog order; `list.sort` is stable,
embedded as insertion sort). -/
def listings_for (all_listings : List Listing) (loc : Nat) : List Listing :=
  List.insertionSort priceLE
    (all_listings.filter fun listing => listing.location_id == loc)

/-- `group_listings_by_location(listings)`: an insertion-ordered dict,
embedded as an association list keyed by first-occurrence order. -/
def group_listings_by_location (listings : List Listing) :
    List (Nat × List Listing) :=
  (firstOccurrences (listings.map (·.location_id))).map fun loc =>
    (loc, listings_for listings loc)

/-- Descending `quantity * length` order on vehicle groups
(`sorted(..., key=lambda v: v['quantity'] * v['length'], reverse=True)`). -/
def requestGE (a b : VehicleGroup) : Prop :=
  b.quantity * b.length ≤ a.quantity * a.length

instance : DecidableRel requestGE :=
  fun a b =>
    (inferInstance : Decidable (b.quantity * b.length ≤ a.quantity * a.length))

/-- The `sorted_request` computed inside the location loop: a stable
descending sort by `quantity * length` (Python `sorted` with `reverse=True`
is stable; embedded as insertion sort on the reversed key order). -/
def sorted_request (vehicle_request : List VehicleGroup) : List VehicleGroup :=
  List.insertionSort requestGE vehicle_request

/-- `for spot in arrangement['listings_used']: if spot in available:
available.remove(spot)` — erase each used listing once (Python `remove`
deletes the first value-equal entry; `erase` on an absent value is the
identity, matching the `in` guard). -/
def eraseEach (pool : List Listing) (spots : List Listing) : List Listing :=
  spots.foldl List.erase pool

/-- The `for vehicle_group in sorted_request` loop of
`find_best_solution_with_grouping`, for one location: thread the remaining
pool and the running total through the groups, calling
`find_cheapest_for_location` with `price_to_beat = float('inf')` (`none`);
a failed group makes the whole location infeasible (`None`).  Returns the
location total and the used listings in consumption order. -/
def solve_location_groups :
    List VehicleGroup → List Listing → Nat → Option (Nat × List Listing)
  | [], _, current_total_price => some (current_total_price, [])
  | vehicle_group :: rest, available_listings_at_loc, current_total_price =>
    match find_cheapest_for_location vehicle_group.quantity vehicle_group.length
        available_listings_at_loc none with
    | none => none
    | some arrangement =>
      match solve_location_groups rest
          (eraseEach available_listings_at_loc arrangement.listings_used)
          (current_total_price + arrangement.total_price_in_cents) with
      | none => none
      | some r => some (r.1, arrangement.listings_used ++ r.2)

/-- One element of `overall_results`:
`{location_id, total_price_in_cents, listing_ids}`. -/
structure LocationResult where
  location_id : Nat
  total_price_in_cents : Nat
  listing_ids : List Nat
deriving DecidableEq, Repr

/-- Ascending total-price order on results
(`key=lambda x: x['total_price_in_cents']`). -/
def resultLE (a b : LocationResult) : Prop :=
  a.total_price_in_cents ≤ b.total_price_in_cents

instance : DecidableRel resultLE :=
  fun a b =>
    (inferInstance : Decidable (a.total_price_in_cents ≤ b.total_price_in_cents))

instance : IsTotal LocationResult resultLE :=
  ⟨fun a b => Nat.le_total a.total_price_in_cents b.total_price_in_cents⟩

instance : IsTrans LocationResult resultLE :=
  ⟨fun _ _ _ => Nat.le_trans⟩

/-- The `overall_results` list before the final sort: one entry per feasible
location, in the dict's key (encounter) order. -/
def overall_results (vehicle_request : List VehicleGroup)
    (all_listings : List Listing) : List LocationResult :=
  (group_listings_by_location all_listings).filterMap fun entry =>
    match solve_location_groups (sorted_request vehicle_request) entry.2 0 with
    | none => none
    | some (total, used) => some ⟨entry.1, total, used.map (·.id)⟩

/-- `find_best_solution_with_grouping(vehicle_request, all_listings)`:
the feasible locations' results, stably sorted ascending by total price
(Python `list.sort` is stable, embedded as insertion sort). -/
def find_best_solution_with_grouping (vehicle_request : List VehicleGroup)
    (all_listings : List Listing) : List LocationResult :=
  List.insertionSort resultLE (overall_results vehicle_request all_listings)

/-- Spec-side notion for C4: a listing's (width, length) dominates a
(width, length) footprint when it is ≥ in both dimensions. -/
def dominates (listing : Listing) (fp : Nat × Nat) : Prop :=
  fp.1 ≤ listing.width ∧ fp.2 ≤ listing.length

/-- Invariant of the ordering loop's state when started from
`price_to_beat = +inf`: either nothing was found yet (and the cheapest price
is still `+inf`), or the best arrangement is a recorded feasible run whose
price is the current cheapest price. -/
def GoodState (carLength : Nat) (pool : List Listing)
    (s : Option Nat × Option Arrangement) : Prop :=
  s = (none, none) ∨
    ∃ a : Arrangement, s.1 = some a.total_price_in_cents ∧ s.2 = some a ∧
      run_ordering carLength none a.split_of_cars pool 0 =
        some (a.listings_used, a.total_price_in_cents)

/-- `find_cheapest_for_location` with `numCars = 0` explores no ordering
(`range(1, 1)` is empty) and returns `None`. -/
theorem fcfl_zero (carLength : Nat) (pool : List Listing) (ptb : Option Nat) :
    find_cheapest_for_location 0 carLength pool ptb = none := rfl

/-- If some vehicle group in the list has quantity 0, the per-location group
loop fails. -/
theorem slg_none (gs : List VehicleGroup) (pool : List Listing) (total : Nat)
    (g : VehicleGroup) (hg : g ∈ gs) (hq : g.quantity = 0) :
    solve_location_groups gs pool total = none := by
  induction gs generalizing pool total with
  | nil => cases hg
  | cons h t ih =>
    rcases List.mem_cons.1 hg with rfl | hmem
    · simp only [solve_location_groups, hq, fcfl_zero]
    · simp only [solve_location_groups]
      cases hf : find_cheapest_for_location h.quantity h.length pool none with
      | none => rfl
      | some arr => simp only [ih _ _ hmem]

/-- C4: for every vehicleLength, groupSize and listing, the end-to-end
footprint is (vehicleLength·groupSize, groupSize·10), the side-by-side
footprint is (10·groupSize, vehicleLength), and the listing passes the
compatibility test iff its dimensions dominate at least one of the two
footprints. -/
theorem spec2proof_c4 (vehicleLength groupSize : Nat) (listing : Listing) :
    endToEnd vehicleLength groupSize = (vehicleLength * groupSize, groupSize * 10) ∧
    sideBySide vehicleLength groupSize = (10 * groupSize, vehicleLength) ∧
    (isCompatible listing vehicleLength groupSize = true ↔
      dominates listing (endToEnd vehicleLength groupSize) ∨
        dominates listing (sideBySide vehicleLength groupSize)) := by
  refine ⟨rfl, rfl, ?_⟩
  simp [isCompatible, dominates, endToEnd, sideBySide, and_comm]

/-- C5: one vehicle group (length 10, quantity 2) and two 10×10 listings at
price 300 each at one location: the solver returns exactly one result with
total 600 and both listing ids; the winning arrangement splits the group into
two sub-groups of one (split [1, 1]), and a single sub-group of two fits
neither orientation. -/
theorem spec2proof_c5 :
    find_best_solution_with_grouping [⟨10, 2⟩]
        [⟨1, 1, 10, 10, 300⟩, ⟨2, 1, 10, 10, 300⟩] =
      [⟨1, 600, [1, 2]⟩] ∧
    (find_cheapest_for_location 2 10
        [⟨1, 1, 10, 10, 300⟩, ⟨2, 1, 10, 10, 300⟩] none).map
        (fun a => (a.split_of_cars, a.total_price_in_cents)) =
      some ([1, 1], 600) ∧
    find_cheapest_spot_optimized 2 10
        [⟨1, 1, 10, 10, 300⟩, ⟨2, 1, 10, 10, 300⟩] = none := by
  refine ⟨?_, ?_, ?_⟩ <;> decide

/-- C1 counterexample: an empty vehicle request with a non-empty catalog does
NOT yield the empty result sequence — the location loop body never runs, the
location stays feasible, and a zero-price result is emitted for it. -/
theorem spec2proof_c1_counterexample :
    find_best_solution_with_grouping [] [⟨1, 1, 10, 10, 300⟩] =
      [⟨1, 0, []⟩] ∧
    find_best_solution_with_grouping [] [⟨1, 1, 10, 10, 300⟩] ≠ [] := by
  refine ⟨?_, ?_⟩ <;> decide

/-- C1 amended: with zero listings the result sequence is empty; with zero
vehicle groups the solver instead returns, for every location of the catalog
in encounter order, a result with total price 0 and no listing ids. -/
theorem spec2proof_c1_amended :
    (∀ vehicle_request : List VehicleGroup,
      find_best_solution_with_grouping vehicle_request [] = []) ∧
    (∀ all_listings : List Listing,
      find_best_solution_with_grouping [] all_listings =
        (firstOccurrences (all_listings.map (·.location_id))).map fun loc =>
          ⟨loc, 0, []⟩) := by
  constructor
  · intro vehicle_request; rfl
  · intro ls
    have aux : ∀ keys : List Nat,
        (keys.filterMap fun loc =>
          match solve_location_groups (sorted_request []) (listings_for ls loc) 0 with
          | none => none
          | some (total, used) =>
            some (⟨loc, total, used.map (·.id)⟩ : LocationResult)) =
          keys.map fun loc => ⟨loc, 0, []⟩ := by
      intro keys
      induction keys with
      | nil => rfl
      | cons k t ih =>
        rw [List.map_cons, ← ih]
        exact List.filterMap_cons_some rfl
    have hor : overall_results [] ls =
        (firstOccurrences (ls.map (·.location_id))).map fun loc =>
          (⟨loc, 0, []⟩ : LocationResult) := by
      unfold overall_results group_listings_by_location
      rw [List.filterMap_map]
      exact aux _
    unfold find_best_solution_with_grouping
    rw [hor]
    apply List.Sorted.insertionSort_eq
    refine List.pairwise_map.2 ?_
    have triv : ∀ ks : List Nat,
        List.Pairwise
          (fun a b : Nat =>
            resultLE ⟨a, 0, []⟩ ⟨b, 0, []⟩) ks := by
      intro ks
      induction ks with
      | nil => exact List.Pairwise.nil
      | cons h t ih => exact List.Pairwise.cons (fun b _ => Nat.le_refl 0) ih
    exact triv _

/-- C10: a vehicle request containing a quantity-0 group makes every location
infeasible (the sub-group count loop `range(1, 0 + 1)` is empty, so Group
Search returns `None`), hence the solver returns the empty sequence. -/
theorem spec2proof_c10 (vehicle_request : List VehicleGroup)
    (all_listings : List Listing) (g : VehicleGroup) (hg : g ∈ vehicle_request)
    (hq : g.quantity = 0) (hne : all_listings ≠ []) :
    find_best_solution_with_grouping vehicle_request all_listings = [] ∧
    ∀ (carLength : Nat) (pool : List Listing) (ptb : Option Nat),
      find_cheapest_for_location 0 carLength pool ptb = none := by
  refine ⟨?_, fun carLength pool ptb => fcfl_zero carLength pool ptb⟩
  unfold find_best_solution_with_grouping
  have hor : overall_results vehicle_request all_listings = [] := by
    unfold overall_results
    rw [List.filterMap_eq_nil_iff]
    intro entry _
    have hg' : g ∈ sorted_request vehicle_request :=
      ((List.perm_insertionSort requestGE vehicle_request).mem_iff).2 hg
    rw [slg_none _ _ _ g hg' hq]
  rw [hor]
  rfl

/-- Witness for C10 at a concrete input. -/
theorem spec2proof_c10_witness :
    (⟨10, 0⟩ : VehicleGroup) ∈ [(⟨10, 0⟩ : VehicleGroup)] ∧
    ([(⟨1, 1, 10, 10, 300⟩ : Listing)] ≠ []) ∧
    find_best_solution_with_grouping [⟨10, 0⟩] [⟨1, 1, 10, 10, 300⟩] = [] :=
  ⟨by decide, by decide,
    (spec2proof_c10 [⟨10, 0⟩] [⟨1, 1, 10, 10, 300⟩] ⟨10, 0⟩ (by decide) rfl
      (by decide)).1⟩

/-- C7: on a price-ascending pool, `find_cheapest_spot_optimized` returns
`None` iff no pool listing is compatible, and otherwise returns a compatible
pool listing whose price is minimal among all compatible pool listings. -/
theorem spec2proof_c7 (numCars carLength : Nat) (pool : List Listing)
    (hs : List.Sorted priceLE pool) :
    (find_cheapest_spot_optimized numCars carLength pool = none ↔
      ∀ l ∈ pool, isCompatible l carLength numCars = false) ∧
    (∀ l, find_cheapest_spot_optimized numCars carLength pool = some l →
      l ∈ pool ∧ isCompatible l carLength numCars = true ∧
        ∀ m ∈ pool, isCompatible m carLength numCars = true →
          l.price_in_cents ≤ m.price_in_cents) := by
  induction pool with
  | nil =>
    exact ⟨by simp [find_cheapest_spot_optimized], by
      simp [find_cheapest_spot_optimized]⟩
  | cons x t ih =>
    obtain ⟨hx, ht⟩ := List.sorted_cons.1 hs
    obtain ⟨ih1, ih2⟩ := ih ht
    cases hcx : isCompatible x carLength numCars with
    | true =>
      have heq : find_cheapest_spot_optimized numCars carLength (x :: t) =
          some x := List.find?_cons_of_pos _ hcx
      constructor
      · rw [heq]
        constructor
        · intro h; cases h
        · intro h
          have := h x (List.mem_cons_self x t)
          rw [hcx] at this
          cases this
      · intro l hl
        rw [heq, Option.some_inj] at hl
        subst hl
        refine ⟨List.mem_cons_self x t, hcx, ?_⟩
        intro m hm _
        rcases List.mem_cons.1 hm with rfl | hm
        · exact Nat.le_refl _
        · exact hx m hm
    | false =>
      have heq : find_cheapest_spot_optimized numCars carLength (x :: t) =
          find_cheapest_spot_optimized numCars carLength t := by
        refine List.find?_cons_of_neg _ ?_
        simp [hcx]
      constructor
      · rw [heq, ih1]
        constructor
        · intro h l hl
          rcases List.mem_cons.1 hl with rfl | hl
          · exact hcx
          · exact h l hl
        · intro h l hl
          exact h l (List.mem_cons_of_mem _ hl)
      · intro l hl
        rw [heq] at hl
        obtain ⟨h1, h2, h3⟩ := ih2 l hl
        refine ⟨List.mem_cons_of_mem _ h1, h2, ?_⟩
        intro m hm hcm
        rcases List.mem_cons.1 hm with rfl | hm
        · rw [hcx] at hcm; cases hcm
        · exact h3 m hm hcm

/-- Witness for C7 at a concrete input: a pool with one compatible and one
incompatible listing, sorted by price. -/
theorem spec2proof_c7_witness :
    List.Sorted priceLE [⟨1, 1, 5, 5, 100⟩, ⟨2, 1, 30, 20, 200⟩] ∧
    (∀ l, find_cheapest_spot_optimized 1 10
        [⟨1, 1, 5, 5, 100⟩, ⟨2, 1, 30, 20, 200⟩] = some l →
      l ∈ [⟨1, 1, 5, 5, 100⟩, ⟨2, 1, 30, 20, 200⟩] ∧
        isCompatible l 10 1 = true ∧
        ∀ m ∈ [(⟨1, 1, 5, 5, 100⟩ : Listing), ⟨2, 1, 30, 20, 200⟩],
          isCompatible m 10 1 = true →
            l.price_in_cents ≤ m.price_in_cents) :=
  ⟨by decide,
    (spec2proof_c7 1 10 [⟨1, 1, 5, 5, 100⟩, ⟨2, 1, 30, 20, 200⟩] (by decide)).2⟩

/-- A run of one ordering that completes under some price-to-beat also
completes, with the same listings and price, with the price-to-beat removed
(`+inf` never prunes). -/
theorem run_ordering_unpruned (carLength : Nat) (c : Option Nat) :
    ∀ (gs : List Nat) (pool : List Listing) (price : Nat)
      (r : List Listing × Nat),
      run_ordering carLength c gs pool price = some r →
      run_ordering carLength none gs pool price = some r := by
  intro gs
  induction gs with
  | nil => intro pool price r h; exact h
  | cons g rest ih =>
    intro pool price r h
    simp only [run_ordering] at h ⊢
    split at h
    · cases h
    · cases hf : find_cheapest_spot_optimized g carLength pool with
      | none => simp only [hf] at h; cases h
      | some spot =>
        simp only [hf] at h
        cases hr : run_ordering carLength c rest (pool.erase spot)
            (price + spot.price_in_cents) with
        | none => simp only [hr] at h; cases h
        | some r2 =>
          simp only [hr] at h
          simp only [priceReached, Bool.false_eq_true, if_false, hf,
            ih _ _ r2 hr]
          exact h

/-- The running price only grows along a completed run. -/
theorem run_ordering_price_le (carLength : Nat) (c : Option Nat) :
    ∀ (gs : List Nat) (pool : List Listing) (price : Nat)
      (r : List Listing × Nat),
      run_ordering carLength c gs pool price = some r → price ≤ r.2 := by
  intro gs
  induction gs with
  | nil =>
    intro pool price r h
    cases h
    exact Nat.le_refl _
  | cons g rest ih =>
    intro pool price r h
    simp only [run_ordering] at h
    split at h
    · cases h
    · cases hf : find_cheapest_spot_optimized g carLength pool with
      | none => simp only [hf] at h; cases h
      | some spot =>
        simp only [hf] at h
        cases hr : run_ordering carLength c rest (pool.erase spot)
            (price + spot.price_in_cents) with
        | none => simp only [hr] at h; cases h
        | some r2 =>
          simp only [hr] at h
          cases h
          exact Nat.le_trans (Nat.le_add_right _ _) (ih _ _ r2 hr)

/-- Pruning soundness: an ordering feasible without a price-to-beat either
also completes unchanged under price-to-beat `c`, or its total price is at
least `c`. -/
theorem run_ordering_pruned_ge (carLength : Nat) (c : Nat) :
    ∀ (gs : List Nat) (pool : List Listing) (price : Nat)
      (r : List Listing × Nat),
      run_ordering carLength none gs pool price = some r →
      run_ordering carLength (some c) gs pool price = some r ∨ c ≤ r.2 := by
  intro gs
  induction gs with
  | nil => intro pool price r h; exact Or.inl h
  | cons g rest ih =>
    intro pool price r h
    simp only [run_ordering, priceReached, Bool.false_eq_true, if_false] at h
    cases hf : find_cheapest_spot_optimized g carLength pool with
    | none => simp only [hf] at h; cases h
    | some spot =>
      simp only [hf] at h
      cases hr : run_ordering carLength none rest (pool.erase spot)
          (price + spot.price_in_cents) with
      | none => simp only [hr] at h; cases h
      | some r2 =>
        simp only [hr] at h
        cases h
        by_cases hb : c ≤ price
        · refine Or.inr ?_
          exact Nat.le_trans hb
            (Nat.le_trans (Nat.le_add_right _ _)
              (run_ordering_price_le carLength none rest (pool.erase spot)
                (price + spot.price_in_cents) r2 hr))
        · rcases ih _ _ _ hr with hru | hge
          · refine Or.inl ?_
            simp only [run_ordering, priceReached, hf]
            rw [if_neg]
            · simp only [hru]
            · simp only [decide_eq_true_eq]
              exact hb
          · exact Or.inr hge

/-- Step equation: an infeasible (or pruned) ordering leaves the state
unchanged. -/
theorem fcflStep_eq_none (carLength : Nat) (pool : List Listing)
    (s : Option Nat × Option Arrangement) (o : List Nat)
    (h : run_ordering carLength s.1 o pool 0 = none) :
    fcflStep carLength pool s o = s := by
  unfold fcflStep
  rw [h]

/-- Step equation: a completed ordering updates the state iff it strictly
beats the current cheapest price. -/
theorem fcflStep_eq_some (carLength : Nat) (pool : List Listing)
    (s : Option Nat × Option Arrangement) (o : List Nat)
    (u : List Listing) (p : Nat)
    (h : run_ordering carLength s.1 o pool 0 = some (u, p)) :
    fcflStep carLength pool s o =
      if priceBelow p s.1 = true then (some p, some ⟨o, u, p⟩) else s := by
  unfold fcflStep
  rw [h]

/-- One loop iteration preserves the state invariant. -/
theorem fcflStep_good (carLength : Nat) (pool : List Listing)
    (s : Option Nat × Option Arrangement) (o : List Nat)
    (h : GoodState carLength pool s) :
    GoodState carLength pool (fcflStep carLength pool s o) := by
  cases hr : run_ordering carLength s.1 o pool 0 with
  | none => rw [fcflStep_eq_none carLength pool s o hr]; exact h
  | some r =>
    obtain ⟨u, p⟩ := r
    rw [fcflStep_eq_some carLength pool s o u p hr]
    by_cases hb : priceBelow p s.1 = true
    · rw [if_pos hb]
      exact Or.inr ⟨⟨o, u, p⟩, rfl, rfl,
        run_ordering_unpruned carLength s.1 o pool 0 (u, p) hr⟩
    · rw [if_neg hb]
      exact h

/-- One loop iteration either keeps the cheapest price or strictly lowers
it. -/
theorem fcflStep_fst (carLength : Nat) (pool : List Listing)
    (s : Option Nat × Option Arrangement) (o : List Nat) :
    (fcflStep carLength pool s o).1 = s.1 ∨
      ∃ p, (fcflStep carLength pool s o).1 = some p ∧
        priceBelow p s.1 = true := by
  cases hr : run_ordering carLength s.1 o pool 0 with
  | none => rw [fcflStep_eq_none carLength pool s o hr]; exact Or.inl rfl
  | some r =>
    obtain ⟨u, p⟩ := r
    rw [fcflStep_eq_some carLength pool s o u p hr]
    by_cases hb : priceBelow p s.1 = true
    · rw [if_pos hb]
      exact Or.inr ⟨p, rfl, hb⟩
    · rw [if_neg hb]
      exact Or.inl rfl

/-- Once finite, the cheapest price never rises along the loop. -/
theorem fcfl_fold_fst_le (carLength : Nat) (pool : List Listing) :
    ∀ (os : List (List Nat)) (s : Option Nat × Option Arrangement) (c : Nat),
      s.1 = some c →
      ∃ cf, (os.foldl (fcflStep carLength pool) s).1 = some cf ∧ cf ≤ c := by
  intro os
  induction os with
  | nil => intro s c hc; exact ⟨c, hc, Nat.le_refl c⟩
  | cons o rest ih =>
    intro s c hc
    rcases fcflStep_fst carLength pool s o with h1 | ⟨p, hp, hpb⟩
    · exact ih _ c (h1.trans hc)
    · rw [hc] at hpb
      simp only [priceBelow, decide_eq_true_eq] at hpb
      obtain ⟨cf, hcf, hle⟩ := ih _ p hp
      exact ⟨cf, hcf, Nat.le_trans hle (Nat.le_of_lt hpb)⟩

/-- The loop's final cheapest price is at most the price of every feasible
explored ordering. -/
theorem fcfl_fold_opt (carLength : Nat) (pool : List Listing) :
    ∀ (os : List (List Nat)) (s : Option Nat × Option Arrangement),
      GoodState carLength pool s →
      ∀ o ∈ os, ∀ r : List Listing × Nat,
        run_ordering carLength none o pool 0 = some r →
        ∃ cf, (os.foldl (fcflStep carLength pool) s).1 = some cf ∧
          cf ≤ r.2 := by
  intro os
  induction os with
  | nil => intro s _ o ho; cases ho
  | cons o2 rest ih =>
    intro s hgood o ho r hr
    obtain ⟨u, p⟩ := r
    rcases List.mem_cons.1 ho with rfl | ho2
    · rcases hgood with hinit | ⟨a, ha1, _, _⟩
      · subst hinit
        have hstep : (fcflStep carLength pool (none, none) o).1 = some p := by
          rw [fcflStep_eq_some carLength pool (none, none) o u p hr,
            if_pos (show priceBelow p (none, none).1 = true from rfl)]
        exact fcfl_fold_fst_le carLength pool rest _ _ hstep
      · rcases run_ordering_pruned_ge carLength a.total_price_in_cents o pool 0
            (u, p) hr with hru | hge
        · have hrun : run_ordering carLength s.1 o pool 0 = some (u, p) := by
            rw [ha1]; exact hru
          by_cases hb : priceBelow p s.1 = true
          · have hstep : (fcflStep carLength pool s o).1 = some p := by
              rw [fcflStep_eq_some carLength pool s o u p hrun, if_pos hb]
            exact fcfl_fold_fst_le carLength pool rest _ _ hstep
          · have hst : fcflStep carLength pool s o = s :=
              (fcflStep_eq_some carLength pool s o u p hrun).trans (if_neg hb)
            have hb2 : a.total_price_in_cents ≤ p := by
              rw [ha1] at hb
              simpa [priceBelow, Nat.not_lt] using hb
            obtain ⟨cf, hcf, hle⟩ :=
              fcfl_fold_fst_le carLength pool rest (fcflStep carLength pool s o)
                a.total_price_in_cents (by rw [hst]; exact ha1)
            exact ⟨cf, hcf, Nat.le_trans hle hb2⟩
        · rcases fcflStep_fst carLength pool s o with h1 | ⟨p2, hp2, hpb⟩
          · obtain ⟨cf, hcf, hle⟩ :=
              fcfl_fold_fst_le carLength pool rest _ _ (h1.trans ha1)
            exact ⟨cf, hcf, Nat.le_trans hle hge⟩
          · rw [ha1] at hpb
            have hlt : p2 < a.total_price_in_cents := by
              simpa [priceBelow] using hpb
            obtain ⟨cf, hcf, hle⟩ :=
              fcfl_fold_fst_le carLength pool rest _ _ hp2
            exact ⟨cf, hcf,
              Nat.le_trans hle (Nat.le_trans (Nat.le_of_lt hlt) hge)⟩
    · exact ih _ (fcflStep_good carLength pool s o2 hgood) o ho2 (u, p) hr

/-- The loop preserves the state invariant from any good start. -/
theorem fcfl_fold_good (carLength : Nat) (pool : List Listing) :
    ∀ (os : List (List Nat)) (s : Option Nat × Option Arrangement),
      GoodState carLength pool s →
      GoodState carLength pool (os.foldl (fcflStep carLength pool) s) := by
  intro os
  induction os with
  | nil => intro s h; exact h
  | cons o rest ih =>
    intro s h
    exact ih _ (fcflStep_good carLength pool s o h)

/-- If the loop ends with no best arrangement, then it started with none and
every explored ordering was infeasible. -/
theorem fcfl_fold_none (carLength : Nat) (pool : List Listing) :
    ∀ (os : List (List Nat)) (s : Option Nat × Option Arrangement),
      GoodState carLength pool s →
      (os.foldl (fcflStep carLength pool) s).2 = none →
      s.2 = none ∧
        ∀ o ∈ os, run_ordering carLength none o pool 0 = none := by
  intro os
  induction os with
  | nil =>
    intro s _ h
    exact ⟨h, fun o ho => absurd ho (List.not_mem_nil o)⟩
  | cons o rest ih =>
    intro s hgood hfin
    obtain ⟨hstep2, hrest⟩ :=
      ih _ (fcflStep_good carLength pool s o hgood) hfin
    have hso : s.2 = none ∧ run_ordering carLength none o pool 0 = none := by
      cases hr : run_ordering carLength s.1 o pool 0 with
      | none =>
        rw [fcflStep_eq_none carLength pool s o hr] at hstep2
        refine ⟨hstep2, ?_⟩
        rcases hgood with hinit | ⟨a, _, ha2, _⟩
        · rw [hinit] at hr
          exact hr
        · rw [hstep2] at ha2
          cases ha2
      | some r =>
        obtain ⟨u, p⟩ := r
        rw [fcflStep_eq_some carLength pool s o u p hr] at hstep2
        by_cases hb : priceBelow p s.1 = true
        · rw [if_pos hb] at hstep2
          cases hstep2
        · rw [if_neg hb] at hstep2
          rcases hgood with hinit | ⟨a, _, ha2, _⟩
          · rw [hinit] at hb
            exact absurd rfl hb
          · rw [hstep2] at ha2
            cases ha2
    exact ⟨hso.1, fun o2 ho2 => by
      rcases List.mem_cons.1 ho2 with rfl | hm
      · exact hso.2
      · exact hrest o2 hm⟩

/-- If every ordering is infeasible, the loop never leaves the initial
`(+inf, None)` state. -/
theorem fcfl_fold_all_none (carLength : Nat) (pool : List Listing) :
    ∀ (os : List (List Nat)),
      (∀ o ∈ os, run_ordering carLength none o pool 0 = none) →
      os.foldl (fcflStep carLength pool) (none, none) = (none, none) := by
  intro os
  induction os with
  | nil => intro _; rfl
  | cons o rest ih =>
    intro hall
    have hstep : fcflStep carLength pool (none, none) o = (none, none) :=
      fcflStep_eq_none carLength pool (none, none) o
        (hall o (List.mem_cons_self o rest))
    rw [List.foldl_cons, hstep]
    exact ih fun o2 ho2 => hall o2 (List.mem_cons_of_mem o ho2)

/-- C2: with `price_to_beat = +inf`, Group Search returns an arrangement whose
total price is at most the total price of every feasible explored ordering
(every distinct permutation of every partition of `numCars`, evaluated
greedily), and returns `None` iff no explored ordering is feasible. -/
theorem spec2proof_c2 (numCars carLength : Nat) (pool : List Listing)
    (hn : 1 ≤ numCars) (hs : List.Sorted priceLE pool) :
    (∀ o ∈ all_orderings numCars, ∀ (u : List Listing) (p : Nat),
        run_ordering carLength none o pool 0 = some (u, p) →
        ∃ arr, find_cheapest_for_location numCars carLength pool none =
            some arr ∧ arr.total_price_in_cents ≤ p) ∧
    (find_cheapest_for_location numCars carLength pool none = none ↔
      ∀ o ∈ all_orderings numCars,
        run_ordering carLength none o pool 0 = none) := by
  constructor
  · intro o ho u p hr
    obtain ⟨cf, hcf, hle⟩ :=
      fcfl_fold_opt carLength pool (all_orderings numCars) (none, none)
        (Or.inl rfl) o ho (u, p) hr
    have hgood :=
      fcfl_fold_good carLength pool (all_orderings numCars) (none, none)
        (Or.inl rfl)
    rcases hgood with hinit | ⟨a, ha1, ha2, _⟩
    · rw [hinit] at hcf
      cases hcf
    · rw [ha1] at hcf
      refine ⟨a, ha2, ?_⟩
      cases hcf
      exact hle
  · constructor
    · intro hnone
      exact (fcfl_fold_none carLength pool (all_orderings numCars)
        (none, none) (Or.inl rfl) hnone).2
    · intro hall
      show ((all_orderings numCars).foldl (fcflStep carLength pool)
        (none, none)).2 = none
      rw [fcfl_fold_all_none carLength pool (all_orderings numCars) hall]

/-- Witness for C2 at a concrete input: one vehicle, one listing pool. -/
theorem spec2proof_c2_witness :
    (1 ≤ 1 ∧ List.Sorted priceLE [⟨1, 1, 30, 20, 500⟩]) ∧
    (find_cheapest_for_location 1 10 [⟨1, 1, 30, 20, 500⟩] none = none ↔
      ∀ o ∈ all_orderings 1,
        run_ordering 10 none o [⟨1, 1, 30, 20, 500⟩] 0 = none) :=
  ⟨⟨Nat.le_refl 1, by decide⟩,
    (spec2proof_c2 1 10 [⟨1, 1, 30, 20, 500⟩] (Nat.le_refl 1) (by decide)).2⟩

/-- Any list of naturals with all entries at least `a` sums to at least
`length · a`. -/
theorem length_mul_le_sum (a : Nat) :
    ∀ p : List Nat, (∀ x ∈ p, a ≤ x) → p.length * a ≤ p.sum := by
  intro p
  induction p with
  | nil => intro _; simp
  | cons x t ih =>
    intro h
    have hx := h x (List.mem_cons_self x t)
    have ht := ih fun y hy => h y (List.mem_cons_of_mem x hy)
    simp only [List.length_cons, List.sum_cons, Nat.succ_mul]
    omega

/-- Characterization of `find_partitions` with at least one part requested:
it yields exactly the non-decreasing lists of the requested length whose
parts are at least `start` and sum to the total. -/
theorem find_partitions_mem (n : Nat) :
    ∀ (total m : Nat) (l : List Nat),
      l ∈ find_partitions total (n + 1) m ↔
        l.length = n + 1 ∧ l.Sorted (· ≤ ·) ∧ (∀ x ∈ l, m ≤ x) ∧
          l.sum = total := by
  induction n with
  | zero =>
    intro total m l
    constructor
    · intro h
      simp only [find_partitions] at h
      by_cases hm : m ≤ total
      · rw [if_pos hm, List.mem_singleton] at h
        subst h
        refine ⟨rfl, List.sorted_singleton total, ?_, by simp⟩
        intro x hx
        rw [List.mem_singleton] at hx
        subst hx
        exact hm
      · rw [if_neg hm] at h
        cases h
    · rintro ⟨hlen, _, hmin, hsum⟩
      cases l with
      | nil => simp at hlen
      | cons a t =>
        cases t with
        | cons b t2 => simp at hlen
        | nil =>
          have ha : a = total := by simpa using hsum
          subst ha
          simp only [find_partitions]
          rw [if_pos (hmin a (List.mem_singleton_self a))]
          exact List.mem_singleton_self _
  | succ k ih =>
    intro total m l
    constructor
    · intro h
      simp only [find_partitions] at h
      rw [List.mem_flatMap] at h
      obtain ⟨i, hi, hl⟩ := h
      rw [List.mem_map] at hl
      obtain ⟨p, hp, rfl⟩ := hl
      rw [List.mem_range'_1] at hi
      have hix : i ≤ total / (k + 2) := by omega
      obtain ⟨hplen, hpsort, hpmin, hpsum⟩ := (ih (total - i) i p).1 hp
      have hibound : i * (k + 2) ≤ total :=
        (Nat.le_div_iff_mul_le (by omega)).1 hix
      have hit : i ≤ total := by
        have h1 : i * 1 ≤ i * (k + 2) :=
          Nat.mul_le_mul (Nat.le_refl i) (by omega)
        rw [Nat.mul_one] at h1
        omega
      refine ⟨by simp [hplen], ?_, ?_, ?_⟩
      · rw [List.sorted_cons]
        exact ⟨hpmin, hpsort⟩
      · intro x hx
        rcases List.mem_cons.1 hx with rfl | hx
        · exact hi.1
        · exact Nat.le_trans hi.1 (hpmin x hx)
      · simp only [List.sum_cons, hpsum]
        omega
    · rintro ⟨hlen, hsort, hmin, hsum⟩
      cases l with
      | nil => simp at hlen
      | cons a p =>
        have hplen : p.length = k + 1 := by simpa using hlen
        obtain ⟨hap, hpsort⟩ := List.sorted_cons.1 hsort
        have ham : m ≤ a := hmin a (List.mem_cons_self a p)
        have hsum2 : a + p.sum = total := by simpa using hsum
        have hps : (k + 1) * a ≤ p.sum := by
          have hlm := length_mul_le_sum a p hap
          rw [hplen] at hlm
          exact hlm
        have hbound : a * (k + 2) ≤ total := by
          have hexp : a * (k + 2) = a + (k + 1) * a := by ring
          omega
        have hadiv : a ≤ total / (k + 2) :=
          (Nat.le_div_iff_mul_le (by omega)).2 hbound
        simp only [find_partitions]
        rw [List.mem_flatMap]
        refine ⟨a, ?_, ?_⟩
        · rw [List.mem_range'_1]
          omega
        · rw [List.mem_map]
          exact ⟨p, (ih (total - a) a p).2 ⟨hplen, hpsort, hap, by omega⟩, rfl⟩

/-- `find_partitions` produces no duplicate lists. -/
theorem find_partitions_nodup (n : Nat) :
    ∀ (total m : Nat), (find_partitions total (n + 1) m).Nodup := by
  induction n with
  | zero =>
    intro total m
    simp only [find_partitions]
    by_cases hm : m ≤ total
    · rw [if_pos hm]
      exact List.nodup_singleton _
    · rw [if_neg hm]
      exact List.nodup_nil
  | succ k ih =>
    intro total m
    simp only [find_partitions]
    rw [List.nodup_flatMap]
    constructor
    · intro i _
      exact (ih (total - i) i).map List.cons_injective
    · refine List.Pairwise.imp ?_
        (List.pairwise_lt_range' m (total / (k + 2) + 1 - m))
      intro i j hij
      intro x hxi hxj
      simp only [List.mem_map] at hxi hxj
      obtain ⟨p1, _, he1⟩ := hxi
      obtain ⟨p2, _, he2⟩ := hxj
      have h12 : i :: p1 = j :: p2 := he1.trans he2.symm
      injection h12 with hh _
      omega

/-- The produced lists, as multisets, are exactly the partitions of the total
into the requested number of positive parts; with no duplicates their number
equals the number of such partitions. -/
theorem find_partitions_count (total n : Nat) :
    (find_partitions total (n + 1) 1).length =
      Fintype.card {p : Nat.Partition total // p.parts.card = n + 1} := by
  classical
  rw [Fintype.card_subtype]
  rw [← List.toFinset_card_of_nodup (find_partitions_nodup n total 1)]
  refine (Finset.card_bij (fun p _ => Multiset.sort (· ≤ ·) p.parts)
    ?_ ?_ ?_).symm
  · intro p hp
    rw [Finset.mem_filter] at hp
    rw [List.mem_toFinset]
    refine (find_partitions_mem n total 1 _).2 ⟨?_, ?_, ?_, ?_⟩
    · rw [Multiset.length_sort]
      exact hp.2
    · exact Multiset.sort_sorted _ _
    · intro x hx
      have hx2 : x ∈ p.parts := by
        rw [← Multiset.sort_eq (· ≤ ·) p.parts]
        exact hx
      exact p.parts_pos hx2
    · have hcoe := congrArg Multiset.sum (Multiset.sort_eq (· ≤ ·) p.parts)
      rw [p.parts_sum] at hcoe
      exact hcoe
  · intro p1 h1 p2 h2 hsort
    have hs2 : Multiset.sort (· ≤ ·) p1.parts = Multiset.sort (· ≤ ·) p2.parts :=
      hsort
    apply Nat.Partition.ext
    rw [← Multiset.sort_eq (· ≤ ·) p1.parts, ← Multiset.sort_eq (· ≤ ·) p2.parts,
      hs2]
  · intro l hl
    rw [List.mem_toFinset] at hl
    obtain ⟨hlen, hsort, hmin, hsum⟩ := (find_partitions_mem n total 1 l).1 hl
    refine ⟨⟨(l : Multiset Nat), ?_, ?_⟩, ?_, ?_⟩
    · intro x hx
      exact hmin x (by simpa using hx)
    · simpa using hsum
    · rw [Finset.mem_filter]
      refine ⟨Finset.mem_univ _, ?_⟩
      simpa using hlen
    · have hperm : List.Perm (Multiset.sort (· ≤ ·) (l : Multiset Nat)) l :=
        Multiset.coe_eq_coe.1 (Multiset.sort_eq (· ≤ ·) (l : Multiset Nat))
      exact List.eq_of_perm_of_sorted hperm (Multiset.sort_sorted _ _) hsort

/-- C3: `find_partitions(total, numParts, minPart)` yields exactly the
non-decreasing tuples of length `numParts` with parts at least `minPart`
summing to `total`, each exactly once; for `minPart = 1` their number is the
number of integer partitions of `total` into `numParts` positive parts. -/
theorem spec2proof_c3 (total numParts minPart : Nat) (ht : 1 ≤ total)
    (hk : 1 ≤ numParts) (hm : 1 ≤ minPart) :
    (∀ l, l ∈ find_partitions total numParts minPart ↔
        (l.length = numParts ∧ l.Sorted (· ≤ ·) ∧ (∀ x ∈ l, minPart ≤ x) ∧
          l.sum = total)) ∧
    (find_partitions total numParts minPart).Nodup ∧
    (find_partitions total numParts 1).length =
      Fintype.card {p : Nat.Partition total // p.parts.card = numParts} := by
  obtain ⟨n, rfl⟩ : ∃ n, numParts = n + 1 := ⟨numParts - 1, by omega⟩
  exact ⟨fun l => find_partitions_mem n total minPart l,
    find_partitions_nodup n total minPart, find_partitions_count total n⟩

/-- Witness for C3 at total 5, two parts, minimum part 1. -/
theorem spec2proof_c3_witness :
    (∀ l, l ∈ find_partitions 5 2 1 ↔
        (l.length = 2 ∧ l.Sorted (· ≤ ·) ∧ (∀ x ∈ l, 1 ≤ x) ∧
          l.sum = 5)) ∧
    (find_partitions 5 2 1).Nodup ∧
    (find_partitions 5 2 1).length =
      Fintype.card {p : Nat.Partition 5 // p.parts.card = 2} :=
  spec2proof_c3 5 2 1 (by decide) (by decide) (by decide)

/-- Inserting a result whose total price is `p` puts it in front of the other
results of total price `p` (the inserted element passes every element of
strictly smaller total). -/
theorem filter_orderedInsert_pos (p : Nat) (a : LocationResult)
    (ha : a.total_price_in_cents = p) :
    ∀ l : List LocationResult,
      (List.orderedInsert resultLE a l).filter
          (fun r => r.total_price_in_cents == p) =
        a :: l.filter (fun r => r.total_price_in_cents == p) := by
  intro l
  induction l with
  | nil => simp [List.orderedInsert, ha]
  | cons b t ih =>
    by_cases hr : resultLE a b
    · simp only [List.orderedInsert]
      rw [if_pos hr]
      simp [List.filter_cons, ha]
    · simp only [List.orderedInsert]
      rw [if_neg hr]
      have hb : (b.total_price_in_cents == p) = false := by
        rw [beq_eq_false_iff_ne]
        unfold resultLE at hr
        omega
      simp only [List.filter_cons, hb, Bool.false_eq_true, if_false]
      exact ih

/-- Inserting a result of a different total price leaves the price-`p`
subsequence untouched. -/
theorem filter_orderedInsert_neg (p : Nat) (a : LocationResult)
    (ha : a.total_price_in_cents ≠ p) :
    ∀ l : List LocationResult,
      (List.orderedInsert resultLE a l).filter
          (fun r => r.total_price_in_cents == p) =
        l.filter (fun r => r.total_price_in_cents == p) := by
  intro l
  have hbeq : (a.total_price_in_cents == p) = false := beq_eq_false_iff_ne.2 ha
  induction l with
  | nil => simp [List.orderedInsert, hbeq]
  | cons b t ih =>
    by_cases hr : resultLE a b
    · simp only [List.orderedInsert]
      rw [if_pos hr]
      simp only [List.filter_cons, hbeq, Bool.false_eq_true, if_false]
    · simp only [List.orderedInsert]
      rw [if_neg hr]
      simp only [List.filter_cons, ih]

/-- Stability of the final sort: for every total price `p`, the price-`p`
results appear in the sorted output in the same order as before the sort. -/
theorem filter_insertionSort_result (p : Nat) :
    ∀ l : List LocationResult,
      (List.insertionSort resultLE l).filter
          (fun r => r.total_price_in_cents == p) =
        l.filter (fun r => r.total_price_in_cents == p) := by
  intro l
  induction l with
  | nil => rfl
  | cons a t ih =>
    simp only [List.insertionSort]
    by_cases ha : a.total_price_in_cents = p
    · rw [filter_orderedInsert_pos p a ha, ih]
      have hat : (a.total_price_in_cents == p) = true := by simpa using ha
      simp [List.filter_cons, hat]
    · rw [filter_orderedInsert_neg p a ha, ih]
      have hbeq : (a.total_price_in_cents == p) = false :=
        beq_eq_false_iff_ne.2 ha
      simp [List.filter_cons, hbeq]

/-- The locations of the unsorted results form a subsequence of the catalog's
location ids in encounter (first-occurrence) order. -/
theorem overall_results_locations_sublist (vr : List VehicleGroup)
    (ls : List Listing) :
    ((overall_results vr ls).map (·.location_id)).Sublist
      (firstOccurrences (ls.map (·.location_id))) := by
  unfold overall_results group_listings_by_location
  rw [List.filterMap_map]
  generalize firstOccurrences (ls.map (·.location_id)) = keys
  induction keys with
  | nil => simp
  | cons k t ih =>
    rw [List.filterMap_cons]
    cases hk : solve_location_groups (sorted_request vr) (listings_for ls k) 0 with
    | none =>
      simp only [Function.comp_apply, hk]
      exact ih.cons k
    | some r =>
      obtain ⟨total, used⟩ := r
      simp only [Function.comp_apply, hk, List.map_cons]
      exact List.Sublist.cons₂ k ih

/-- Every result in the (unsorted) result list comes from a successful full
pass of the per-location group loop over that location's pool. -/
theorem mem_overall_results (vr : List VehicleGroup) (ls : List Listing)
    (r : LocationResult) (hr : r ∈ overall_results vr ls) :
    ∃ used : List Listing,
      solve_location_groups (sorted_request vr)
          (listings_for ls r.location_id) 0 =
        some (r.total_price_in_cents, used) ∧
      r.listing_ids = used.map (·.id) := by
  unfold overall_results at hr
  rw [List.mem_filterMap] at hr
  obtain ⟨entry, hentry, hfr⟩ := hr
  unfold group_listings_by_location at hentry
  rw [List.mem_map] at hentry
  obtain ⟨loc, _, rfl⟩ := hentry
  revert hfr
  cases hk : solve_location_groups (sorted_request vr) (listings_for ls loc) 0 with
  | none =>
    intro hfr
    simp only [hk] at hfr
    cases hfr
  | some p =>
    obtain ⟨total, used⟩ := p
    intro hfr
    simp only [hk] at hfr
    cases hfr
    exact ⟨used, hk, rfl⟩

/-- C6: the returned sequence is sorted ascending by total price, equal-price
results keep their pre-sort (encounter) order, the unsorted results follow the
catalog's first-occurrence order of locations, and every returned result comes
from a location where the whole (sorted) vehicle request was placed. -/
theorem spec2proof_c6 (vehicle_request : List VehicleGroup)
    (all_listings : List Listing) :
    (find_best_solution_with_grouping vehicle_request all_listings).Sorted
        resultLE ∧
    (∀ p : Nat,
      (find_best_solution_with_grouping vehicle_request all_listings).filter
          (fun r => r.total_price_in_cents == p) =
        (overall_results vehicle_request all_listings).filter
          (fun r => r.total_price_in_cents == p)) ∧
    ((overall_results vehicle_request all_listings).map
        (·.location_id)).Sublist
      (firstOccurrences (all_listings.map (·.location_id))) ∧
    (∀ r ∈ find_best_solution_with_grouping vehicle_request all_listings,
      ∃ used : List Listing,
        solve_location_groups (sorted_request vehicle_request)
            (listings_for all_listings r.location_id) 0 =
          some (r.total_price_in_cents, used) ∧
        r.listing_ids = used.map (·.id)) := by
  refine ⟨List.sorted_insertionSort resultLE _,
    fun p => filter_insertionSort_result p _,
    overall_results_locations_sublist vehicle_request all_listings, ?_⟩
  intro r hr
  exact mem_overall_results vehicle_request all_listings r
    ((List.perm_insertionSort resultLE _).mem_iff.1 hr)

/-- Every listing used by a run of one ordering is taken from the pool. -/
theorem run_ordering_used_subset (carLength : Nat) (c : Option Nat) :
    ∀ (gs : List Nat) (pool : List Listing) (price : Nat)
      (r : List Listing × Nat),
      run_ordering carLength c gs pool price = some r →
      ∀ x ∈ r.1, x ∈ pool := by
  intro gs
  induction gs with
  | nil =>
    intro pool price r h x hx
    cases h
    cases hx
  | cons g rest ih =>
    intro pool price r h x hx
    simp only [run_ordering] at h
    split at h
    · cases h
    · cases hf : find_cheapest_spot_optimized g carLength pool with
      | none => simp only [hf] at h; cases h
      | some spot =>
        simp only [hf] at h
        cases hr : run_ordering carLength c rest (pool.erase spot)
            (price + spot.price_in_cents) with
        | none => simp only [hr] at h; cases h
        | some r2 =>
          simp only [hr] at h
          cases h
          rcases List.mem_cons.1 hx with rfl | hx2
          · exact List.mem_of_find?_eq_some hf
          · exact List.mem_of_mem_erase (ih _ _ r2 hr x hx2)

/-- If the pool's listing ids are distinct, the listings used by a run of one
ordering carry distinct ids. -/
theorem run_ordering_used_nodup (carLength : Nat) (c : Option Nat) :
    ∀ (gs : List Nat) (pool : List Listing) (price : Nat)
      (r : List Listing × Nat),
      (pool.map (·.id)).Nodup →
      run_ordering carLength c gs pool price = some r →
      (r.1.map (·.id)).Nodup := by
  intro gs
  induction gs with
  | nil =>
    intro pool price r _ h
    cases h
    exact List.nodup_nil
  | cons g rest ih =>
    intro pool price r hnd h
    simp only [run_ordering] at h
    split at h
    · cases h
    · cases hf : find_cheapest_spot_optimized g carLength pool with
      | none => simp only [hf] at h; cases h
      | some spot =>
        simp only [hf] at h
        cases hr : run_ordering carLength c rest (pool.erase spot)
            (price + spot.price_in_cents) with
        | none => simp only [hr] at h; cases h
        | some r2 =>
          simp only [hr] at h
          cases h
          have hspot : spot ∈ pool := List.mem_of_find?_eq_some hf
          have hernd : ((pool.erase spot).map (·.id)).Nodup :=
            List.Nodup.sublist ((List.erase_sublist spot pool).map (·.id)) hnd
          have hnd2 := ih (pool.erase spot) _ r2 hernd hr
          rw [List.map_cons, List.nodup_cons]
          refine ⟨?_, hnd2⟩
          intro hmem
          rw [List.mem_map] at hmem
          obtain ⟨y, hy, hyid⟩ := hmem
          have hy2 : y ∈ pool.erase spot :=
            run_ordering_used_subset carLength c rest _ _ r2 hr y hy
          have hpoolnd : pool.Nodup := hnd.of_map _
          obtain ⟨hne, hyp⟩ := (List.Nodup.mem_erase_iff hpoolnd).1 hy2
          exact hne (List.inj_on_of_nodup_map hnd hyp hspot hyid)

/-- Any property of arrangements that holds for every completed run of an
ordering over the pool holds for the loop's final best arrangement. -/
theorem fcfl_fold_best_pred (carLength : Nat) (pool : List Listing)
    (P : Arrangement → Prop)
    (hstep : ∀ (c : Option Nat) (o : List Nat) (r : List Listing × Nat),
      run_ordering carLength c o pool 0 = some r → P ⟨o, r.1, r.2⟩) :
    ∀ (os : List (List Nat)) (s : Option Nat × Option Arrangement),
      (∀ a, s.2 = some a → P a) →
      ∀ a, (os.foldl (fcflStep carLength pool) s).2 = some a → P a := by
  intro os
  induction os with
  | nil => intro s hs a ha; exact hs a ha
  | cons o rest ih =>
    intro s hs a ha
    refine ih (fcflStep carLength pool s o) ?_ a ha
    intro b hb
    cases hr : run_ordering carLength s.1 o pool 0 with
    | none =>
      rw [fcflStep_eq_none carLength pool s o hr] at hb
      exact hs b hb
    | some r =>
      obtain ⟨u, p⟩ := r
      rw [fcflStep_eq_some carLength pool s o u p hr] at hb
      by_cases hcond : priceBelow p s.1 = true
      · rw [if_pos hcond] at hb
        cases hb
        exact hstep s.1 o (u, p) hr
      · rw [if_neg hcond] at hb
        exact hs b hb

/-- The listings used by the best arrangement of Group Search come from the
pool, and carry distinct ids when the pool's ids are distinct. -/
theorem fcfl_used_props (numCars carLength : Nat) (pool : List Listing)
    (ptb : Option Nat) (arr : Arrangement)
    (h : find_cheapest_for_location numCars carLength pool ptb = some arr) :
    (∀ x ∈ arr.listings_used, x ∈ pool) ∧
      ((pool.map (·.id)).Nodup → (arr.listings_used.map (·.id)).Nodup) := by
  refine fcfl_fold_best_pred carLength pool
    (fun a => (∀ x ∈ a.listings_used, x ∈ pool) ∧
      ((pool.map (·.id)).Nodup → (a.listings_used.map (·.id)).Nodup))
    ?_ (all_orderings numCars) (ptb, none) ?_ arr h
  · intro c o r hr
    exact ⟨run_ordering_used_subset carLength c o pool 0 r hr,
      fun hnd => run_ordering_used_nodup carLength c o pool 0 r hnd hr⟩
  · intro a ha
    cases ha

/-- Erasing a batch of listings yields a subsequence of the pool. -/
theorem eraseEach_sublist :
    ∀ (spots pool : List Listing), (eraseEach pool spots).Sublist pool := by
  intro spots
  induction spots with
  | nil => intro pool; exact List.Sublist.refl pool
  | cons a t ih =>
    intro pool
    exact (ih (pool.erase a)).trans (List.erase_sublist a pool)

/-- On a duplicate-free pool, membership after a batch erase is membership in
the pool minus membership in the erased batch. -/
theorem eraseEach_mem (x : Listing) :
    ∀ (spots pool : List Listing), pool.Nodup →
      (x ∈ eraseEach pool spots ↔ x ∈ pool ∧ x ∉ spots) := by
  intro spots
  induction spots with
  | nil =>
    intro pool _
    simp [eraseEach]
  | cons a t ih =>
    intro pool hnd
    have heq : eraseEach pool (a :: t) = eraseEach (pool.erase a) t := rfl
    rw [heq, ih (pool.erase a) (hnd.erase a),
      List.Nodup.mem_erase_iff hnd]
    constructor
    · rintro ⟨⟨hne, hp⟩, hnt⟩
      refine ⟨hp, ?_⟩
      simp only [List.mem_cons, not_or]
      exact ⟨hne, hnt⟩
    · rintro ⟨hp, hnat⟩
      simp only [List.mem_cons, not_or] at hnat
      exact ⟨⟨hnat.1, hp⟩, hnat.2⟩

/-- Every listing consumed by the per-location group loop comes from the
location's pool. -/
theorem slg_used_mem (vgs : List VehicleGroup) :
    ∀ (pool : List Listing) (total : Nat) (res : Nat × List Listing),
      solve_location_groups vgs pool total = some res →
      ∀ x ∈ res.2, x ∈ pool := by
  induction vgs with
  | nil =>
    intro pool total res h x hx
    cases h
    cases hx
  | cons g rest ih =>
    intro pool total res h x hx
    simp only [solve_location_groups] at h
    cases hf : find_cheapest_for_location g.quantity g.length pool none with
    | none => simp only [hf] at h; cases h
    | some arr =>
      simp only [hf] at h
      cases hs : solve_location_groups rest
          (eraseEach pool arr.listings_used)
          (total + arr.total_price_in_cents) with
      | none => simp only [hs] at h; cases h
      | some res2 =>
        simp only [hs] at h
        cases h
        rcases List.mem_append.1 hx with hx1 | hx2
        · exact (fcfl_used_props g.quantity g.length pool none arr hf).1 x hx1
        · exact (eraseEach_sublist arr.listings_used pool).subset
            (ih _ _ res2 hs x hx2)

/-- On a pool with distinct listing ids, the listings consumed by the
per-location group loop carry distinct ids. -/
theorem slg_used_nodup (vgs : List VehicleGroup) :
    ∀ (pool : List Listing) (total : Nat) (res : Nat × List Listing),
      (pool.map (·.id)).Nodup →
      solve_location_groups vgs pool total = some res →
      (res.2.map (·.id)).Nodup := by
  induction vgs with
  | nil =>
    intro pool total res _ h
    cases h
    exact List.nodup_nil
  | cons g rest ih =>
    intro pool total res hnd h
    simp only [solve_location_groups] at h
    cases hf : find_cheapest_for_location g.quantity g.length pool none with
    | none => simp only [hf] at h; cases h
    | some arr =>
      simp only [hf] at h
      cases hs : solve_location_groups rest
          (eraseEach pool arr.listings_used)
          (total + arr.total_price_in_cents) with
      | none => simp only [hs] at h; cases h
      | some res2 =>
        simp only [hs] at h
        cases h
        have hpoolnd : pool.Nodup := hnd.of_map _
        have hprops := fcfl_used_props g.quantity g.length pool none arr hf
        have hsub : (eraseEach pool arr.listings_used).Sublist pool :=
          eraseEach_sublist _ _
        have hernd : ((eraseEach pool arr.listings_used).map (·.id)).Nodup :=
          List.Nodup.sublist (hsub.map (·.id)) hnd
        have hresnd := ih _ _ res2 hernd hs
        have hressub := slg_used_mem rest _ _ res2 hs
        rw [List.map_append, List.nodup_append]
        refine ⟨hprops.2 hnd, hresnd, ?_⟩
        intro iid hi1 hi2
        rw [List.mem_map] at hi1 hi2
        obtain ⟨y, hy, rfl⟩ := hi1
        obtain ⟨z, hz, hzid⟩ := hi2
        have hzmem : z ∈ eraseEach pool arr.listings_used := hressub z hz
        obtain ⟨hzp, hznu⟩ :=
          (eraseEach_mem z arr.listings_used pool hpoolnd).1 hzmem
        have hyp : y ∈ pool := hprops.1 y hy
        have hzy : z = y := List.inj_on_of_nodup_map hnd hzp hyp hzid
        rw [hzy] at hznu
        exact hznu hy

/-- Membership of a listing of the location pool in the catalog. -/
theorem listings_for_mem (ls : List Listing) (loc : Nat) (x : Listing)
    (hx : x ∈ listings_for ls loc) : x ∈ ls ∧ x.location_id = loc := by
  unfold listings_for at hx
  obtain ⟨h1, h2⟩ :=
    List.mem_filter.1 ((List.perm_insertionSort priceLE _).mem_iff.1 hx)
  exact ⟨h1, by simpa using h2⟩

/-- C8: every listing id in a result belongs to a catalog listing located at
that result's location; listings never cross locations. -/
theorem spec2proof_c8 (vehicle_request : List VehicleGroup)
    (all_listings : List Listing) :
    ∀ r ∈ find_best_solution_with_grouping vehicle_request all_listings,
      ∀ i ∈ r.listing_ids, ∃ l ∈ all_listings,
        l.id = i ∧ l.location_id = r.location_id := by
  intro r hr i hi
  obtain ⟨used, hslg, hids⟩ := mem_overall_results vehicle_request all_listings r
    ((List.perm_insertionSort resultLE _).mem_iff.1 hr)
  rw [hids, List.mem_map] at hi
  obtain ⟨l, hl, rfl⟩ := hi
  have hmem : l ∈ listings_for all_listings r.location_id :=
    slg_used_mem (sorted_request vehicle_request) _ _ _ hslg l hl
  obtain ⟨h1, h2⟩ := listings_for_mem all_listings r.location_id l hmem
  exact ⟨l, h1, rfl, h2⟩

/-- Witness for C8 at the two-listing scenario: listing id 1 of the single
result is a catalog listing at the result's location. -/
theorem spec2proof_c8_witness :
    ∃ l ∈ [(⟨1, 1, 10, 10, 300⟩ : Listing), ⟨2, 1, 10, 10, 300⟩],
      l.id = 1 ∧
        l.location_id = (⟨1, 600, [1, 2]⟩ : LocationResult).location_id :=
  spec2proof_c8 [⟨10, 2⟩] [⟨1, 1, 10, 10, 300⟩, ⟨2, 1, 10, 10, 300⟩]
    ⟨1, 600, [1, 2]⟩ (by decide) 1 (by decide)

/-- C9: when the catalog's listing ids are pairwise distinct, no listing id
repeats inside a single result's id list. -/
theorem spec2proof_c9 (vehicle_request : List VehicleGroup)
    (all_listings : List Listing)
    (hids : (all_listings.map (·.id)).Nodup) :
    ∀ r ∈ find_best_solution_with_grouping vehicle_request all_listings,
      r.listing_ids.Nodup := by
  intro r hr
  obtain ⟨used, hslg, hids2⟩ := mem_overall_results vehicle_request all_listings r
    ((List.perm_insertionSort resultLE _).mem_iff.1 hr)
  rw [hids2]
  have hpool : ((listings_for all_listings r.location_id).map (·.id)).Nodup := by
    unfold listings_for
    have hperm := (List.perm_insertionSort priceLE
      (all_listings.filter fun l => l.location_id == r.location_id)).map (·.id)
    refine hperm.nodup_iff.2 ?_
    exact List.Nodup.sublist
      ((List.filter_sublist all_listings).map (·.id)) hids
  exact slg_used_nodup (sorted_request vehicle_request) _ _ _ hpool hslg

/-- Witness for C9 at the two-listing scenario with distinct ids. -/
theorem spec2proof_c9_witness :
    (([(⟨1, 1, 10, 10, 300⟩ : Listing), ⟨2, 1, 10, 10, 300⟩].map
        (·.id)).Nodup) ∧
    ∀ r ∈ find_best_solution_with_grouping [⟨10, 2⟩]
        [⟨1, 1, 10, 10, 300⟩, ⟨2, 1, 10, 10, 300⟩],
      r.listing_ids.Nodup :=
  ⟨by decide,
    spec2proof_c9 [⟨10, 2⟩] [⟨1, 1, 10, 10, 300⟩, ⟨2, 1, 10, 10, 300⟩]
      (by decide)⟩

end ParkingSearch
